import Mathlib

/-!
Verification of the ClaSP time-series segmentation core of the aeon repository
against its design specification.

The segmentation core (window extraction, candidate scoring, profile building,
recursive splitting, output formatting, periodicity estimation) is shipped as
`aeon.segmentation._clasp`; the repository snapshot at hand contains only its
callers (the segmentation example notebook), so every definition of the core
below is modelled from the specification text, faithful to its words, and the
claims are settled against these models.  Sequences are lists of rationals,
scores are rationals, and all definitions are executable.
-/

namespace Aeon

/-- Modelled from the spec: `WindowExtractor` (§4.1), missing from the source
snapshot.  Row `i` of the window matrix is `Sequence[i : i+w]`, for `i` in
`[0, n-w]`; `n-w+1` rows in total.  Degenerate parameters (`w = 0` or a
sequence shorter than one window) yield no rows. -/
def windowMatrix (s : List ℚ) (w : Nat) : List (List ℚ) :=
  if w = 0 ∨ s.length < w then []
  else (List.range (s.length - w + 1)).map (fun i => (s.drop i).take w)

lemma windowMatrix_length {s : List ℚ} {w : Nat} (hw : 1 ≤ w) (hn : w ≤ s.length) :
    (windowMatrix s w).length = s.length - w + 1 := by
  unfold windowMatrix
  rw [if_neg (by omega), List.length_map, List.length_range]

lemma windowMatrix_getElem? {s : List ℚ} {w i : Nat} (hw : 1 ≤ w) (hn : w ≤ s.length)
    (hi : i < s.length - w + 1) :
    (windowMatrix s w)[i]? = some ((s.drop i).take w) := by
  unfold windowMatrix
  rw [if_neg (by omega), List.getElem?_map, List.getElem?_range hi]
  rfl

lemma windowMatrix_row_length {s : List ℚ} {w i : Nat} (hn : w ≤ s.length)
    (hi : i < s.length - w + 1) :
    ((s.drop i).take w).length = w := by
  rw [List.length_take, List.length_drop]
  omega

/-- C2: for every sequence of length `n` and window length `w` with `1 ≤ w` and
`2w ≤ n`, the window matrix has exactly `n-w+1` rows; row `i` is
`Sequence[i : i+w]` and has length `w`; and row `i+1` is row `i` with its first
sample dropped and the next sample of the sequence appended. -/
theorem windowExtractor_shape_and_shift (s : List ℚ) (w : Nat)
    (hw : 1 ≤ w) (hn : 2 * w ≤ s.length) :
    (windowMatrix s w).length = s.length - w + 1 ∧
    (∀ i, i < s.length - w + 1 →
      (windowMatrix s w)[i]? = some ((s.drop i).take w) ∧
      ((s.drop i).take w).length = w) ∧
    (∀ i a, i + 1 < s.length - w + 1 → s[i + w]? = some a →
      (windowMatrix s w)[i + 1]? = some (((s.drop i).take w).drop 1 ++ [a])) := by
  have hwn : w ≤ s.length := by omega
  refine ⟨windowMatrix_length hw hwn, fun i hi => ⟨windowMatrix_getElem? hw hwn hi,
    windowMatrix_row_length hwn hi⟩, fun i a hi ha => ?_⟩
  rw [windowMatrix_getElem? hw hwn hi]
  congr 1
  rw [List.drop_take]
  have hstep : s.drop (i + 1) = (s.drop i).drop 1 := by
    rw [List.drop_drop]
  have hw1 : w = (w - 1) + 1 := by omega
  rw [← hstep]
  conv_lhs => rw [hw1, List.take_succ]
  have hidx : (s.drop (i + 1))[w - 1]? = some a := by
    rw [List.getElem?_drop]
    have : i + 1 + (w - 1) = i + w := by omega
    rw [this, ha]
  rw [hidx]
  rfl

/-- Concrete instantiation of the window-extractor theorem at `s = [1,2,3,4,5]`,
`w = 2`. -/
theorem windowExtractor_shape_and_shift_witness :
    ((windowMatrix [1, 2, 3, 4, 5] 2).length = 4 ∧
    (∀ i, i < 4 →
      (windowMatrix [(1 : ℚ), 2, 3, 4, 5] 2)[i]? =
        some ((([(1 : ℚ), 2, 3, 4, 5]).drop i).take 2) ∧
      ((([(1 : ℚ), 2, 3, 4, 5]).drop i).take 2).length = 2) ∧
    (∀ i a, i + 1 < 4 → ([(1 : ℚ), 2, 3, 4, 5])[i + 2]? = some a →
      (windowMatrix [1, 2, 3, 4, 5] 2)[i + 1]? =
        some (((([(1 : ℚ), 2, 3, 4, 5]).drop i).take 2).drop 1 ++ [a]))) := by
  have h := windowExtractor_shape_and_shift [1, 2, 3, 4, 5] 2 (by norm_num)
    (by norm_num)
  simpa using h

/-- Modelled from the spec: self-supervised labels (§4.3) — rows with index
below the candidate split `t` get label 0, rows at or above get label 1. -/
def rowLabel (t i : Nat) : Nat := if i < t then 0 else 1

/-- Modelled from the spec: deterministic stratified fold assignment (§4.3);
the seeded shuffle is modelled as the round-robin assignment `i % k`, a fixed
deterministic function of the row index and the fold count. -/
def rowsInFold (m k f : Nat) : List Nat :=
  (List.range m).filter (fun i => i % k == f)

/-- Modelled from the spec: a fold is degenerate when all of its rows carry a
single class label (§4.3, §7). -/
def foldSingleClass (m t k f : Nat) : Bool :=
  (rowsInFold m k f).all (fun i => decide (i < t)) ||
    (rowsInFold m k f).all (fun i => decide (t ≤ i))

/-- Modelled from the spec: some fold of the cross-validation is degenerate. -/
def degenerateFolds (m t k : Nat) : Bool :=
  (List.range k).any (fun f => foldSingleClass m t k f)

/-- Squared Euclidean distance between two windows. -/
def sqDist (a b : List ℚ) : ℚ :=
  ((a.zip b).map (fun p => (p.1 - p.2) ^ 2)).sum

/-- Modelled from the spec: the nearest-neighbour style classifier of §4.3.
For held-out row `i`, the training set is every row of another fold; the
predicted confidence is the label of the closest training row (lowest index on
distance ties), or chance `1/2` when no training row exists. -/
def nnPrediction (X : List (List ℚ)) (t k i : Nat) : ℚ :=
  match (List.range X.length).filter (fun j => !(j % k == i % k)) with
  | [] => 1 / 2
  | j₀ :: rest =>
    let best := rest.foldl
      (fun b j =>
        if sqDist (X.getD j []) (X.getD i []) < sqDist (X.getD b []) (X.getD i [])
        then j else b) j₀
    (rowLabel t best : ℚ)

/-- Contribution of one (positive, negative) prediction pair to the ranking
statistic: 1 when ranked correctly, 1/2 on a tie, 0 otherwise. -/
def pairTerm (sp sn : ℚ) : ℚ :=
  if sn < sp then 1 else if sp = sn then 1 / 2 else 0

/-- Modelled from the spec: the pooled area-under-ROC-curve ranking statistic
(§4.3) over positive-class and negative-class prediction confidences. -/
def aucScore (pos neg : List ℚ) : ℚ :=
  (pos.map (fun sp => (neg.map (fun sn => pairTerm sp sn)).sum)).sum /
    (pos.length * neg.length)

/-- Modelled from the spec: `CandidateScorer` (§4.3), missing from the source
snapshot.  Labels rows by position relative to the split `t`, returns the
chance score `1/2` when some fold is degenerate, and otherwise pools the
cross-validated nearest-neighbour predictions into an AUC. -/
def candidateScore (X : List (List ℚ)) (t k : Nat) : ℚ :=
  let m := X.length
  if degenerateFolds m t k then 1 / 2
  else
    let preds := (List.range m).map (fun i => (rowLabel t i, nnPrediction X t k i))
    let pos := (preds.filter (fun p => p.1 == 1)).map Prod.snd
    let neg := (preds.filter (fun p => p.1 == 0)).map Prod.snd
    aucScore pos neg

lemma pairTerm_nonneg (sp sn : ℚ) : 0 ≤ pairTerm sp sn := by
  unfold pairTerm
  split <;> [norm_num; skip]
  split <;> norm_num

lemma pairTerm_le_one (sp sn : ℚ) : pairTerm sp sn ≤ 1 := by
  unfold pairTerm
  split <;> [norm_num; skip]
  split <;> norm_num

lemma aucScore_nonneg (pos neg : List ℚ) : 0 ≤ aucScore pos neg := by
  unfold aucScore
  refine div_nonneg (List.sum_nonneg ?_) (by positivity)
  intro x hx
  obtain ⟨sp, _, rfl⟩ := List.mem_map.mp hx
  refine List.sum_nonneg ?_
  intro y hy
  obtain ⟨sn, _, rfl⟩ := List.mem_map.mp hy
  exact pairTerm_nonneg sp sn

lemma aucScore_le_one (pos neg : List ℚ) : aucScore pos neg ≤ 1 := by
  unfold aucScore
  refine div_le_one_of_le₀ ?_ (by positivity)
  have houter : ∀ x ∈ pos.map (fun sp => (neg.map (fun sn => pairTerm sp sn)).sum),
      x ≤ (neg.length : ℚ) := by
    intro x hx
    obtain ⟨sp, _, rfl⟩ := List.mem_map.mp hx
    have := List.sum_le_card_nsmul (neg.map (fun sn => pairTerm sp sn)) 1 ?_
    · simpa [List.length_map, nsmul_eq_mul] using this
    · intro y hy
      obtain ⟨sn, _, rfl⟩ := List.mem_map.mp hy
      exact pairTerm_le_one sp sn
  have := List.sum_le_card_nsmul
    (pos.map (fun sp => (neg.map (fun sn => pairTerm sp sn)).sum))
    ((neg.length : ℚ)) houter
  calc (pos.map (fun sp => (neg.map (fun sn => pairTerm sp sn)).sum)).sum
      ≤ (pos.map (fun sp => (neg.map (fun sn => pairTerm sp sn)).sum)).length
          • (neg.length : ℚ) := this
    _ = (pos.length : ℚ) * (neg.length : ℚ) := by
        rw [List.length_map, nsmul_eq_mul]

/-- C3: for every window matrix, every valid candidate split index
(`0 < t < number of rows`) and every fold count, the candidate score lies in
the interval `[0, 1]`. -/
theorem candidateScorer_score_in_unit_interval (X : List (List ℚ)) (t k : Nat)
    (ht0 : 0 < t) (htm : t < X.length) :
    0 ≤ candidateScore X t k ∧ candidateScore X t k ≤ 1 := by
  unfold candidateScore
  by_cases hdeg : degenerateFolds X.length t k
  · simp only [hdeg, if_true]
    norm_num
  · simp only [hdeg, if_false, Bool.false_eq_true]
    exact ⟨aucScore_nonneg _ _, aucScore_le_one _ _⟩

/-- Concrete instantiation of the score-bound theorem on a 3-row window matrix
with split index 1 and 2 folds. -/
theorem candidateScorer_score_in_unit_interval_witness :
    (0 < 1 ∧ 1 < ([[ (0 : ℚ)], [0], [5]] : List (List ℚ)).length) ∧
    (0 ≤ candidateScore [[(0 : ℚ)], [0], [5]] 1 2 ∧
      candidateScore [[(0 : ℚ)], [0], [5]] 1 2 ≤ 1) :=
  ⟨⟨by norm_num, by norm_num⟩,
    candidateScorer_score_in_unit_interval [[(0 : ℚ)], [0], [5]] 1 2
      (by norm_num) (by norm_num)⟩

/-- C4: whenever some cross-validation fold contains rows of only one class —
all its row indices below the split `t`, or all at or above it — the candidate
scorer returns the chance-level score `1/2` rather than failing. -/
theorem candidateScorer_degenerate_fold_chance (X : List (List ℚ)) (t k : Nat)
    (h : ∃ f, f < k ∧
      ((∀ i, i < X.length → i % k = f → i < t) ∨
        (∀ i, i < X.length → i % k = f → t ≤ i))) :
    candidateScore X t k = 1 / 2 := by
  obtain ⟨f, hfk, hone⟩ := h
  have hdeg : degenerateFolds X.length t k = true := by
    unfold degenerateFolds
    rw [List.any_eq_true]
    refine ⟨f, List.mem_range.mpr hfk, ?_⟩
    unfold foldSingleClass
    rcases hone with hall | hall
    · rw [Bool.or_eq_true]
      left
      rw [List.all_eq_true]
      intro i hi
      rw [rowsInFold, List.mem_filter, List.mem_range] at hi
      exact decide_eq_true (hall i hi.1 (by simpa using hi.2))
    · rw [Bool.or_eq_true]
      right
      rw [List.all_eq_true]
      intro i hi
      rw [rowsInFold, List.mem_filter, List.mem_range] at hi
      exact decide_eq_true (hall i hi.1 (by simpa using hi.2))
  unfold candidateScore
  simp only [hdeg, if_true]

/-- Concrete instantiation of the degenerate-fold theorem: with 2 rows and
2 folds, fold 0 holds only row 0, whose label is below the split `t = 1`. -/
theorem candidateScorer_degenerate_fold_chance_witness :
    (∃ f, f < 2 ∧
      ((∀ i, i < ([[ (0 : ℚ)], [7]] : List (List ℚ)).length → i % 2 = f → i < 1) ∨
        (∀ i, i < ([[ (0 : ℚ)], [7]] : List (List ℚ)).length → i % 2 = f → 1 ≤ i))) ∧
    candidateScore [[(0 : ℚ)], [7]] 1 2 = 1 / 2 := by
  refine ⟨⟨0, by norm_num, Or.inl ?_⟩,
    candidateScorer_degenerate_fold_chance [[(0 : ℚ)], [7]] 1 2
      ⟨0, by norm_num, Or.inl (by decide)⟩⟩
  decide

/-- Single step of the running-argmax scan: a new candidate value replaces the
incumbent only when it is strictly greater, so the lowest index wins ties. -/
def argmaxStep (i : Nat) (x : Option ℚ) (best : Option (Nat × ℚ)) :
    Option (Nat × ℚ) :=
  match x, best with
  | some v, none => some (i, v)
  | some v, some b => if b.2 < v then some (i, v) else some b
  | none, b => b

/-- Left-to-right scan computing the position and value of the maximum defined
entry of a profile, starting at index `i` with incumbent `best`. -/
def argmaxAux : Nat → Option (Nat × ℚ) → List (Option ℚ) → Option (Nat × ℚ)
  | _, best, [] => best
  | i, best, x :: xs => argmaxAux (i + 1) (argmaxStep i x best) xs

/-- Modelled from the spec: position and value of the profile maximum, with the
tie-break rule of §4.5 — when several indices share the maximum score, the
lowest index is chosen.  Returns `none` when no profile entry is defined. -/
def argmaxProfile (p : List (Option ℚ)) : Option (Nat × ℚ) :=
  argmaxAux 0 none p

lemma argmaxAux_spec (xs : List (Option ℚ)) :
    ∀ (i : Nat) (best : Option (Nat × ℚ)) (t : Nat) (v : ℚ),
    argmaxAux i best xs = some (t, v) →
    (∀ (j : Nat) (u : ℚ), xs[j]? = some (some u) → u ≤ v) ∧
    (∀ b, best = some b → b.2 ≤ v) ∧
    ((∃ j, xs[j]? = some (some v) ∧ t = i + j ∧
        (∀ b, best = some b → b.2 < v) ∧
        (∀ (j2 : Nat), j2 < j → ∀ u : ℚ, xs[j2]? = some (some u) → u < v)) ∨
      best = some (t, v)) := by
  induction xs with
  | nil =>
    intro i best t v h
    simp only [argmaxAux] at h
    subst h
    refine ⟨by simp, ?_, Or.inr rfl⟩
    intro b hb
    rw [Option.some_inj] at hb
    rw [← hb]
  | cons x xs ih =>
    intro i best t v h
    simp only [argmaxAux] at h
    obtain ⟨ihA, ihB, ihC⟩ := ih (i + 1) (argmaxStep i x best) t v h
    have hstep_le : ∀ b, argmaxStep i x best = some b → b.2 ≤ v := ihB
    have hA : ∀ (j : Nat) (u : ℚ), (x :: xs)[j]? = some (some u) → u ≤ v := by
      intro j u hj
      match j with
      | 0 =>
        simp only [List.getElem?_cons_zero, Option.some.injEq] at hj
        subst hj
        rcases best with _ | b
        · exact hstep_le (i, u) (by simp [argmaxStep])
        · by_cases hlt : b.2 < u
          · exact hstep_le (i, u) (by simp [argmaxStep, hlt])
          · have hb : b.2 ≤ v := hstep_le b (by simp [argmaxStep, hlt])
            exact le_trans (not_lt.mp hlt) hb
      | j + 1 =>
        simp only [List.getElem?_cons_succ] at hj
        exact ihA j u hj
    have hB : ∀ b, best = some b → b.2 ≤ v := by
      rintro b rfl
      rcases x with _ | u
      · exact hstep_le b (by simp [argmaxStep])
      · by_cases hlt : b.2 < u
        · have := hstep_le (i, u) (by simp [argmaxStep, hlt])
          exact le_trans (le_of_lt hlt) this
        · exact hstep_le b (by simp [argmaxStep, hlt])
    refine ⟨hA, hB, ?_⟩
    rcases ihC with ⟨j, hentry, hteq, hbest, hpre⟩ | hright
    · refine Or.inl ⟨j + 1, by simpa using hentry, by omega, ?_, ?_⟩
      · rintro b rfl
        rcases x with _ | u
        · exact hbest b (by simp [argmaxStep])
        · by_cases hlt : b.2 < u
          · have := hbest (i, u) (by simp [argmaxStep, hlt])
            exact lt_trans hlt this
          · exact hbest b (by simp [argmaxStep, hlt])
      · intro j2 hj2 u hj2e
        match j2 with
        | 0 =>
          simp only [List.getElem?_cons_zero, Option.some.injEq] at hj2e
          subst hj2e
          rcases best with _ | b
          · exact hbest (i, u) (by simp [argmaxStep])
          · by_cases hlt : b.2 < u
            · exact hbest (i, u) (by simp [argmaxStep, hlt])
            · have := hbest b (by simp [argmaxStep, hlt])
              exact lt_of_le_of_lt (not_lt.mp hlt) this
        | j2 + 1 =>
          simp only [List.getElem?_cons_succ] at hj2e
          exact hpre j2 (by omega) u hj2e
    · rcases x with _ | u
      · simp only [argmaxStep] at hright
        exact Or.inr hright
      · rcases best with _ | b
        · simp only [argmaxStep, Option.some.injEq] at hright
          have hit : i = t := congrArg Prod.fst hright
          have huv : u = v := congrArg Prod.snd hright
          subst hit
          subst huv
          refine Or.inl ⟨0, by simp, by omega, by simp, ?_⟩
          intro j2 hj2
          exact absurd hj2 (Nat.not_lt_zero _)
        · by_cases hlt : b.2 < u
          · simp only [argmaxStep, if_pos hlt, Option.some.injEq] at hright
            have hit : i = t := congrArg Prod.fst hright
            have huv : u = v := congrArg Prod.snd hright
            subst hit
            subst huv
            refine Or.inl ⟨0, by simp, by omega, ?_, ?_⟩
            · intro b2 hb2
              rw [Option.some_inj] at hb2
              rw [← hb2]
              exact hlt
            · intro j2 hj2
              exact absurd hj2 (Nat.not_lt_zero _)
          · simp only [argmaxStep, if_neg hlt] at hright
            exact Or.inr hright

lemma argmaxProfile_spec {p : List (Option ℚ)} {t : Nat} {v : ℚ}
    (h : argmaxProfile p = some (t, v)) :
    p[t]? = some (some v) ∧
    (∀ (j : Nat) (u : ℚ), p[j]? = some (some u) → u ≤ v) ∧
    (∀ (j : Nat), j < t → ∀ u : ℚ, p[j]? = some (some u) → u < v) := by
  obtain ⟨hA, _, hC⟩ := argmaxAux_spec p 0 none t v h
  rcases hC with ⟨j, hentry, hteq, _, hpre⟩ | hright
  · have : t = j := by omega
    subst this
    exact ⟨hentry, hA, fun j2 hj2 u hj2e => hpre j2 hj2 u hj2e⟩
  · simp at hright

/-- C8: whenever the profile maximum is attained at several indices, the
argmax used by the recursive splitter selects the lowest such index — the
returned index carries the maximum value, every defined profile entry is at
most that value, and no index below the returned one attains it. -/
theorem recursiveSplitter_tie_break_lowest_index (p : List (Option ℚ))
    (t : Nat) (v : ℚ) (h : argmaxProfile p = some (t, v)) :
    p[t]? = some (some v) ∧
    (∀ (j : Nat) (u : ℚ), p[j]? = some (some u) → u ≤ v) ∧
    (∀ (j : Nat), p[j]? = some (some v) → t ≤ j) := by
  obtain ⟨hentry, hmax, hpre⟩ := argmaxProfile_spec h
  refine ⟨hentry, hmax, fun j hj => ?_⟩
  by_contra hlt
  exact absurd (hpre j (by omega) v hj) (lt_irrefl v)

/-- Concrete instantiation of the tie-break theorem on a profile whose maximum
`1` is attained at indices 2 and 3: the argmax returns index 2. -/
theorem recursiveSplitter_tie_break_lowest_index_witness :
    ([none, some 0, some 1, some 1] : List (Option ℚ))[2]? =
        some (some (1 : ℚ)) ∧
    (∀ (j : Nat) (u : ℚ), ([none, some 0, some 1, some 1] :
        List (Option ℚ))[j]? = some (some u) → u ≤ 1) ∧
    (∀ (j : Nat), ([none, some 0, some 1, some 1] :
        List (Option ℚ))[j]? = some (some (1 : ℚ)) → 2 ≤ j) :=
  recursiveSplitter_tie_break_lowest_index _ 2 1 (by decide)

/-- Modelled from the spec: `ProfileBuilder` (§4.4), missing from the source
snapshot.  One score per index of the window matrix; indices inside an
exclusion zone of radius `excl` around either boundary, and the extreme ends
where no valid window pair exists, carry the sentinel `none`. -/
def profileOf (X : List (List ℚ)) (excl k : Nat) : List (Option ℚ) :=
  (List.range X.length).map (fun t =>
    if 0 < t ∧ excl ≤ t ∧ t + excl < X.length then some (candidateScore X t k)
    else none)

lemma profileOf_length (X : List (List ℚ)) (excl k : Nat) :
    (profileOf X excl k).length = X.length := by
  unfold profileOf
  rw [List.length_map, List.length_range]

lemma profileOf_entry_valid {X : List (List ℚ)} {excl k t : Nat} {v : ℚ}
    (h : (profileOf X excl k)[t]? = some (some v)) :
    0 < t ∧ t + excl < X.length ∧ v = candidateScore X t k := by
  unfold profileOf at h
  rcases Nat.lt_or_ge t X.length with hlt | hge
  · rw [List.getElem?_map, List.getElem?_range hlt] at h
    simp only [Option.map_some', Option.some.injEq] at h
    by_cases hc : 0 < t ∧ excl ≤ t ∧ t + excl < X.length
    · rw [if_pos hc] at h
      rw [Option.some_inj] at h
      exact ⟨hc.1, hc.2.2, h.symm⟩
    · rw [if_neg hc] at h
      exact absurd h (by simp)
  · rw [List.getElem?_map, List.getElem?_eq_none (by
      rw [List.length_range]; exact hge)] at h
    exact absurd h (by simp)

/-- An active sub-range of the best-first search: its bounds in global
coordinates, the global index and score of its best candidate split, and the
score profile computed over it. -/
structure Region where
  lo : Nat
  hi : Nat
  cp : Nat
  score : ℚ
  prof : List (Option ℚ)

/-- Sub-sequence `s[lo : hi]` in global coordinates. -/
def subseq (s : List ℚ) (lo hi : Nat) : List ℚ := (s.drop lo).take (hi - lo)

/-- Modelled from the spec: evaluation of one active sub-range (§4.4, §4.5) —
build the window matrix of the sub-sequence, compute its score profile, and
locate the profile maximum, translated to global sequence coordinates.
Returns `none` when the profile has no defined entry. -/
def evalRegion (s : List ℚ) (w k excl lo hi : Nat) : Option Region :=
  match argmaxProfile (profileOf (windowMatrix (subseq s lo hi) w) excl k) with
  | some (t, v) =>
      some ⟨lo, hi, lo + t, v, profileOf (windowMatrix (subseq s lo hi) w) excl k⟩
  | none => none

lemma evalRegion_interior {s : List ℚ} {w k excl lo hi : Nat} {r : Region}
    (hw : 1 ≤ w) (h : evalRegion s w k excl lo hi = some r) :
    r.lo = lo ∧ r.hi = hi ∧ lo < r.cp ∧ r.cp < hi := by
  unfold evalRegion at h
  cases hm : argmaxProfile (profileOf (windowMatrix (subseq s lo hi) w) excl k) with
  | none => rw [hm] at h; exact absurd h (by simp)
  | some tv =>
    obtain ⟨t, v⟩ := tv
    rw [hm] at h
    rw [Option.some_inj] at h
    obtain ⟨hentry, -, -⟩ := argmaxProfile_spec hm
    obtain ⟨ht0, htm, -⟩ := profileOf_entry_valid hentry
    have hXlen : 0 < (windowMatrix (subseq s lo hi) w).length := by omega
    have hguard : ¬ (w = 0 ∨ (subseq s lo hi).length < w) := by
      intro hg
      rw [windowMatrix, if_pos hg] at hXlen
      exact absurd hXlen (by simp)
    push_neg at hguard
    have hXeq : (windowMatrix (subseq s lo hi) w).length =
        (subseq s lo hi).length - w + 1 := windowMatrix_length hw hguard.2
    have hsub : (subseq s lo hi).length ≤ hi - lo := by
      unfold subseq
      rw [List.length_take]
      exact min_le_left _ _
    subst h
    refine ⟨rfl, rfl, ?_, ?_⟩
    · show lo < lo + t
      omega
    · show lo + t < hi
      omega

/-- Modelled from the spec: push a candidate sub-range onto the worklist
(§4.5) — a sub-range shorter than `2w` is rejected outright, as is one whose
profile has no defined entry. -/
def pushRegion (s : List ℚ) (w k excl lo hi : Nat) (q : List Region) :
    List Region :=
  if hi - lo < 2 * w then q
  else
    match evalRegion s w k excl lo hi with
    | some r => r :: q
    | none => q

lemma mem_pushRegion {s : List ℚ} {w k excl lo hi : Nat} {q : List Region}
    {r2 : Region} (h : r2 ∈ pushRegion s w k excl lo hi q) :
    r2 ∈ q ∨ evalRegion s w k excl lo hi = some r2 := by
  unfold pushRegion at h
  split at h
  · exact Or.inl h
  · cases hm : evalRegion s w k excl lo hi with
    | none => simp only [hm] at h; exact Or.inl h
    | some r3 =>
      simp only [hm] at h
      rcases List.mem_cons.mp h with hr | hr
      · subst hr
        exact Or.inr rfl
      · exact Or.inl hr

/-- Modelled from the spec: pop the entry with the best achievable score from
the worklist (§4.5); on equal scores the entry pushed earliest wins, keeping
the iteration order deterministic. -/
def popBest : List Region → Option (Region × List Region)
  | [] => none
  | e :: es =>
    match popBest es with
    | none => some (e, es)
    | some (b, rest) => if e.score < b.score then some (b, e :: rest) else some (e, es)

lemma popBest_perm : ∀ {q : List Region} {r : Region} {rest : List Region},
    popBest q = some (r, rest) → (r :: rest).Perm q := by
  intro q
  induction q with
  | nil => intro r rest h; exact absurd h (by simp [popBest])
  | cons e es ih =>
    intro r rest h
    simp only [popBest] at h
    cases hm : popBest es with
    | none =>
      simp only [hm, Option.some.injEq, Prod.mk.injEq] at h
      obtain ⟨rfl, rfl⟩ := h
      exact List.Perm.refl _
    | some brest =>
      obtain ⟨b, brest2⟩ := brest
      simp only [hm] at h
      by_cases hlt : e.score < b.score
      · rw [if_pos hlt] at h
        simp only [Option.some.injEq, Prod.mk.injEq] at h
        obtain ⟨rfl, rfl⟩ := h
        exact (List.Perm.swap e b brest2).trans ((ih hm).cons e)
      · rw [if_neg hlt] at h
        simp only [Option.some.injEq, Prod.mk.injEq] at h
        obtain ⟨rfl, rfl⟩ := h
        exact List.Perm.refl _

/-- Modelled from the spec: the best-first splitting loop of
`RecursiveSplitter` (§4.5).  Pop the best active sub-range; if its best score
clears the acceptance threshold, record the change point, push the two child
sub-ranges, and continue with one unit of budget consumed; otherwise stop.
Accepted change points and the profiles of accepted regions accumulate. -/
def splitGo (s : List ℚ) (w k excl : Nat) (thr : ℚ) :
    Nat → List Region → List Nat → List (List (Option ℚ)) →
    List Nat × List (List (Option ℚ))
  | 0, _, acc, profs => (acc, profs)
  | fuel + 1, q, acc, profs =>
    match popBest q with
    | none => (acc, profs)
    | some (r, rest) =>
      if thr < r.score then
        splitGo s w k excl thr fuel
          (pushRegion s w k excl r.lo r.cp (pushRegion s w k excl r.cp r.hi rest))
          (r.cp :: acc) (r.prof :: profs)
      else (acc, profs)

/-- Modelled from the spec: the full best-first search over the whole
sequence, with the budget `nCps` as fuel. -/
def claspSearch (s : List ℚ) (w k excl nCps : Nat) (thr : ℚ) :
    List Nat × List (List (Option ℚ)) :=
  splitGo s w k excl thr nCps (pushRegion s w k excl 0 s.length []) [] []

/-- Modelled from the spec: `RecursiveSplitter` (§4.5), missing from the
source snapshot — the final `ChangePointSet`, sorted into increasing order. -/
def recursiveSplit (s : List ℚ) (w k excl nCps : Nat) (thr : ℚ) : List Nat :=
  List.insertionSort (· ≤ ·) (claspSearch s w k excl nCps thr).1

/-- Disjointness of two sub-ranges as open intervals. -/
def regionDisj (a b : Region) : Prop := a.hi ≤ b.lo ∨ b.hi ≤ a.lo

/-- Invariant of the best-first loop: every queued sub-range holds its best
candidate strictly inside its bounds, queued sub-ranges exclude all accepted
change points, queued sub-ranges are pairwise disjoint, and the accepted
change points are pairwise distinct. -/
def SplitInv (q : List Region) (acc : List Nat) : Prop :=
  (∀ r ∈ q, r.lo < r.cp ∧ r.cp < r.hi) ∧
  (∀ r ∈ q, ∀ c ∈ acc, c ≤ r.lo ∨ r.hi ≤ c) ∧
  q.Pairwise regionDisj ∧
  acc.Nodup

lemma pairwise_pushRegion {s : List ℚ} {w k excl lo hi : Nat} {q : List Region}
    (hw : 1 ≤ w) (hq : q.Pairwise regionDisj)
    (hsep : ∀ r2 ∈ q, hi ≤ r2.lo ∨ r2.hi ≤ lo) :
    (pushRegion s w k excl lo hi q).Pairwise regionDisj := by
  unfold pushRegion
  split
  · exact hq
  · cases hm : evalRegion s w k excl lo hi with
    | none => exact hq
    | some r =>
      refine List.Pairwise.cons ?_ hq
      intro b hb
      obtain ⟨hrlo, hrhi, -, -⟩ := evalRegion_interior hw hm
      unfold regionDisj
      rw [hrlo, hrhi]
      exact hsep b hb

lemma splitGo_nodup_length (s : List ℚ) (w k excl : Nat) (thr : ℚ) (hw : 1 ≤ w) :
    ∀ (fuel : Nat) (q : List Region) (acc : List Nat)
      (profs : List (List (Option ℚ))), SplitInv q acc →
    (splitGo s w k excl thr fuel q acc profs).1.Nodup ∧
    (splitGo s w k excl thr fuel q acc profs).1.length ≤ fuel + acc.length := by
  intro fuel
  induction fuel with
  | zero =>
    intro q acc profs hinv
    exact ⟨hinv.2.2.2, by simp [splitGo]⟩
  | succ fuel ih =>
    intro q acc profs hinv
    obtain ⟨hint, hsep, hdisj, hnd⟩ := hinv
    simp only [splitGo]
    cases hm : popBest q with
    | none =>
      refine ⟨hnd, ?_⟩
      show acc.length ≤ fuel + 1 + acc.length
      omega
    | some pr =>
      obtain ⟨r, rest⟩ := pr
      dsimp only
      have hperm := popBest_perm hm
      have hrq : r ∈ q := hperm.subset (List.mem_cons_self r rest)
      have hrint := hint r hrq
      have hrestq : ∀ b ∈ rest, b ∈ q :=
        fun b hb => hperm.subset (List.mem_cons_of_mem r hb)
      have hdisj2 : (r :: rest).Pairwise regionDisj :=
        (hperm.pairwise_iff (fun h => h.symm)).mpr hdisj
      have hrdisj : ∀ b ∈ rest, regionDisj r b := (List.pairwise_cons.mp hdisj2).1
      have hrestdisj : rest.Pairwise regionDisj := (List.pairwise_cons.mp hdisj2).2
      by_cases hthr : thr < r.score
      · rw [if_pos hthr]
        have hmem1 : ∀ b ∈ pushRegion s w k excl r.cp r.hi rest,
            b ∈ rest ∨ (b.lo = r.cp ∧ b.hi = r.hi ∧ r.cp < b.cp ∧ b.cp < r.hi) := by
          intro b hb
          rcases mem_pushRegion hb with h1 | h1
          · exact Or.inl h1
          · obtain ⟨e1, e2, e3, e4⟩ := evalRegion_interior hw h1
            exact Or.inr ⟨e1, e2, e1 ▸ e3, e2 ▸ e4⟩
        have hmem2 : ∀ b ∈ pushRegion s w k excl r.lo r.cp
              (pushRegion s w k excl r.cp r.hi rest),
            b ∈ pushRegion s w k excl r.cp r.hi rest ∨
              (b.lo = r.lo ∧ b.hi = r.cp ∧ r.lo < b.cp ∧ b.cp < r.cp) := by
          intro b hb
          rcases mem_pushRegion hb with h1 | h1
          · exact Or.inl h1
          · obtain ⟨e1, e2, e3, e4⟩ := evalRegion_interior hw h1
            exact Or.inr ⟨e1, e2, e1 ▸ e3, e2 ▸ e4⟩
        have inv1 : ∀ b ∈ pushRegion s w k excl r.lo r.cp
            (pushRegion s w k excl r.cp r.hi rest), b.lo < b.cp ∧ b.cp < b.hi := by
          intro b hb
          rcases hmem2 b hb with h1 | h1
          · rcases hmem1 b h1 with h2 | h2
            · exact hint b (hrestq b h2)
            · omega
          · omega
        have inv2 : ∀ b ∈ pushRegion s w k excl r.lo r.cp
            (pushRegion s w k excl r.cp r.hi rest),
            ∀ c ∈ r.cp :: acc, c ≤ b.lo ∨ b.hi ≤ c := by
          intro b hb c hc
          rcases List.mem_cons.mp hc with hc1 | hc1
          · subst hc1
            rcases hmem2 b hb with h1 | h1
            · rcases hmem1 b h1 with h2 | h2
              · rcases hrdisj b h2 with h3 | h3 <;> omega
              · omega
            · omega
          · rcases hmem2 b hb with h1 | h1
            · rcases hmem1 b h1 with h2 | h2
              · exact hsep b (hrestq b h2) c hc1
              · rcases hsep r hrq c hc1 with h3 | h3 <;> omega
            · rcases hsep r hrq c hc1 with h3 | h3 <;> omega
        have inv3 : (pushRegion s w k excl r.lo r.cp
            (pushRegion s w k excl r.cp r.hi rest)).Pairwise regionDisj := by
          refine pairwise_pushRegion hw (pairwise_pushRegion hw hrestdisj ?_) ?_
          · intro b hb
            rcases hrdisj b hb with h3 | h3 <;> omega
          · intro b hb
            rcases hmem1 b hb with h2 | h2
            · rcases hrdisj b h2 with h3 | h3 <;> omega
            · omega
        have inv4 : (r.cp :: acc).Nodup := by
          rw [List.nodup_cons]
          refine ⟨fun hmem => ?_, hnd⟩
          rcases hsep r hrq r.cp hmem with h3 | h3 <;> omega
        obtain ⟨hN, hL⟩ := ih (pushRegion s w k excl r.lo r.cp
            (pushRegion s w k excl r.cp r.hi rest)) (r.cp :: acc)
          (r.prof :: profs) ⟨inv1, inv2, inv3, inv4⟩
        refine ⟨hN, ?_⟩
        have hlen : (r.cp :: acc).length = acc.length + 1 := rfl
        omega
      · rw [if_neg hthr]
        refine ⟨hnd, ?_⟩
        show acc.length ≤ fuel + 1 + acc.length
        omega

lemma splitInv_init (s : List ℚ) (w k excl : Nat) (hw : 1 ≤ w) :
    SplitInv (pushRegion s w k excl 0 s.length []) [] := by
  refine ⟨?_, ?_, ?_, List.nodup_nil⟩
  · intro r hr
    rcases mem_pushRegion hr with h1 | h1
    · exact absurd h1 (List.not_mem_nil r)
    · obtain ⟨e1, e2, e3, e4⟩ := evalRegion_interior hw h1
      omega
  · intro r hr c hc
    exact absurd hc (List.not_mem_nil c)
  · exact pairwise_pushRegion hw List.Pairwise.nil
      (fun b hb => absurd hb (List.not_mem_nil b))

/-- C1: for every input sequence, positive window length and positive budget
`nCps`, the change-point set returned by the recursive splitter contains at
most `nCps` indices and is strictly increasing, hence duplicate-free. -/
theorem recursiveSplitter_budget_and_strictly_increasing
    (s : List ℚ) (w k excl nCps : Nat) (thr : ℚ) (hw : 1 ≤ w) (hn : 0 < nCps) :
    (recursiveSplit s w k excl nCps thr).length ≤ nCps ∧
    List.Sorted (· < ·) (recursiveSplit s w k excl nCps thr) := by
  obtain ⟨hN, hL⟩ := splitGo_nodup_length s w k excl thr hw nCps
    (pushRegion s w k excl 0 s.length []) [] [] (splitInv_init s w k excl hw)
  unfold recursiveSplit
  constructor
  · rw [(List.perm_insertionSort (· ≤ ·) _).length_eq]
    unfold claspSearch
    simpa using hL
  · have hsorted := List.sorted_insertionSort (· ≤ ·)
      (claspSearch s w k excl nCps thr).1
    have hnd2 : (List.insertionSort (· ≤ ·)
        (claspSearch s w k excl nCps thr).1).Nodup :=
      (List.perm_insertionSort (· ≤ ·) _).nodup_iff.mpr
        (by unfold claspSearch; exact hN)
    exact hsorted.lt_of_le hnd2

/-- Concrete instantiation of the budget-and-order theorem at a length-4
sequence with window length 1 and budget 2. -/
theorem recursiveSplitter_budget_and_strictly_increasing_witness :
    ((1 : Nat) ≤ 1 ∧ (0 : Nat) < 2) ∧
    ((recursiveSplit [(0 : ℚ), 0, 1, 1] 1 2 0 2 (1/2)).length ≤ 2 ∧
      List.Sorted (· < ·) (recursiveSplit [(0 : ℚ), 0, 1, 1] 1 2 0 2 (1/2))) :=
  ⟨⟨le_refl 1, by norm_num⟩,
    recursiveSplitter_budget_and_strictly_increasing [(0 : ℚ), 0, 1, 1] 1 2 0 2
      (1/2) (le_refl 1) (by norm_num)⟩

/-- Modelled from the spec: the dense rendering of `OutputFormatter` (§4.6) —
an integer array of length `n` whose value at position `j` is the count of
change points at or before index `j`. -/
def denseOf (cps : List Nat) (n : Nat) : List Nat :=
  (List.range n).map (fun j => cps.countP (fun c => decide (c ≤ j)))

/-- Recovery of the sparse change-point set from a dense segment-id array by
diffing segment-id transitions (the segment id starts at 0). -/
def sparseOfDense (d : List Nat) : List Nat :=
  (List.range d.length).filter (fun j =>
    decide (d.getD j 0 ≠ if j = 0 then 0 else d.getD (j - 1) 0))

lemma countP_le_zero (l : List Nat) (hnd : l.Nodup) :
    l.countP (fun c => decide (c ≤ 0)) = if 0 ∈ l then 1 else 0 := by
  induction l with
  | nil => simp
  | cons a l ih =>
    have hal : a ∉ l := (List.nodup_cons.mp hnd).1
    have ihl := ih (List.nodup_cons.mp hnd).2
    rw [List.countP_cons, ihl]
    simp only [List.mem_cons]
    by_cases hm : 0 ∈ l <;> by_cases ha : a = 0
    · exact absurd (ha ▸ hm) hal
    · rw [if_pos hm, if_pos (Or.inr hm)]
      simp only [decide_eq_true_eq]
      split_ifs <;> omega
    · subst ha
      rw [if_neg hm, if_pos (Or.inl rfl)]
      simp only [decide_eq_true_eq]
      split_ifs <;> omega
    · have hcond : ¬((0 : Nat) = a ∨ 0 ∈ l) := by
        rintro (h | h)
        · exact ha h.symm
        · exact hm h
      rw [if_neg hm, if_neg hcond]
      simp only [decide_eq_true_eq]
      split_ifs <;> omega

lemma countP_le_succ (l : List Nat) (hnd : l.Nodup) (j : Nat) :
    l.countP (fun c => decide (c ≤ j + 1)) =
      l.countP (fun c => decide (c ≤ j)) + (if j + 1 ∈ l then 1 else 0) := by
  induction l with
  | nil => simp
  | cons a l ih =>
    have hal : a ∉ l := (List.nodup_cons.mp hnd).1
    have ihl := ih (List.nodup_cons.mp hnd).2
    rw [List.countP_cons, List.countP_cons, ihl]
    simp only [List.mem_cons]
    by_cases hm : j + 1 ∈ l <;> by_cases ha : a = j + 1
    · exact absurd (ha ▸ hm) hal
    · rw [if_pos (Or.inr hm), if_pos hm]
      simp only [decide_eq_true_eq]
      split_ifs <;> omega
    · subst ha
      rw [if_neg hm, if_pos (Or.inl rfl)]
      simp only [decide_eq_true_eq]
      split_ifs <;> omega
    · have hcond : ¬(j + 1 = a ∨ j + 1 ∈ l) := by
        rintro (h | h)
        · exact ha h.symm
        · exact hm h
      rw [if_neg hm, if_neg hcond]
      simp only [decide_eq_true_eq]
      split_ifs <;> omega

lemma denseOf_getD {cps : List Nat} {n j : Nat} (hj : j < n) :
    (denseOf cps n).getD j 0 = cps.countP (fun c => decide (c ≤ j)) := by
  unfold denseOf
  rw [List.getD_eq_getElem?_getD, List.getElem?_map, List.getElem?_range hj]
  rfl

lemma dense_transition (cps : List Nat) (n : Nat) (hnd : cps.Nodup)
    (j : Nat) (hj : j < n) :
    ((denseOf cps n).getD j 0 ≠ if j = 0 then 0 else (denseOf cps n).getD (j - 1) 0)
      ↔ j ∈ cps := by
  match j with
  | 0 =>
    rw [if_pos rfl, denseOf_getD hj, countP_le_zero cps hnd]
    by_cases hm : 0 ∈ cps
    · simp [hm]
    · simp [hm]
  | j + 1 =>
    rw [if_neg (by omega)]
    simp only [Nat.add_sub_cancel]
    rw [denseOf_getD hj, denseOf_getD (by omega : j < n), countP_le_succ cps hnd j]
    by_cases hm : j + 1 ∈ cps
    · simp only [hm, if_true, iff_true]
      omega
    · simp only [hm, if_false, iff_false, ne_eq, not_not]
      omega

/-- C5: converting a sorted, duplicate-free change-point set whose indices lie
inside the sequence to the dense segment-id array and recovering the set by
diffing segment-id transitions reproduces the original set exactly. -/
theorem outputFormatter_round_trip (cps : List Nat) (n : Nat)
    (hsorted : List.Sorted (· < ·) cps) (hbound : ∀ c ∈ cps, c < n) :
    sparseOfDense (denseOf cps n) = cps := by
  have hnd : cps.Nodup := hsorted.imp (fun h => Nat.ne_of_lt h)
  have hlen : (denseOf cps n).length = n := by
    unfold denseOf
    rw [List.length_map, List.length_range]
  have hmem : ∀ j : Nat, j ∈ sparseOfDense (denseOf cps n) ↔ j ∈ cps := by
    intro j
    unfold sparseOfDense
    rw [List.mem_filter, List.mem_range, hlen]
    constructor
    · rintro ⟨hjn, hcond⟩
      rw [decide_eq_true_eq] at hcond
      exact (dense_transition cps n hnd j hjn).mp hcond
    · intro hjc
      have hjn : j < n := hbound j hjc
      exact ⟨hjn, by
        rw [decide_eq_true_eq]
        exact (dense_transition cps n hnd j hjn).mpr hjc⟩
  have hnd2 : (sparseOfDense (denseOf cps n)).Nodup := by
    unfold sparseOfDense
    exact (List.nodup_range _).filter _
  have hsort2 : List.Sorted (· < ·) (sparseOfDense (denseOf cps n)) := by
    unfold sparseOfDense
    exact (List.pairwise_lt_range _).filter _
  have hperm : (sparseOfDense (denseOf cps n)).Perm cps :=
    (List.perm_ext_iff_of_nodup hnd2 hnd).mpr hmem
  haveI : IsAntisymm Nat (· < ·) := ⟨fun a b h1 h2 => absurd h2 (Nat.lt_asymm h1)⟩
  exact List.eq_of_perm_of_sorted hperm hsort2 hsorted

/-- Concrete instantiation of the round-trip theorem at the change-point set
`[1, 3]` with sequence length 5. -/
theorem outputFormatter_round_trip_witness :
    (List.Sorted (· < ·) [1, 3] ∧ (∀ c ∈ [1, 3], c < 5)) ∧
    sparseOfDense (denseOf [1, 3] 5) = [1, 3] :=
  ⟨⟨by decide, by decide⟩,
    outputFormatter_round_trip [1, 3] 5 (by decide) (by decide)⟩

/-- Modelled from the spec: the error taxonomy of §7. -/
inductive ClaspFault where
  | invalidWindowLength
  | insufficientLength
  | sequenceTooShort
  | invalidBudget
deriving DecidableEq

/-- Modelled from the spec: the validated entry point of the segmentation core
(§6, §7), missing from the source snapshot.  All input validation happens
synchronously before the search starts; on violation an error is returned and
no change-point set at all is produced.  On success it returns the sorted
change-point set together with the score profiles of the accepted regions.
The random seed of the spec enters only through the fold assignment, which is
modelled by the fixed deterministic function `i % k`. -/
def claspRun (s : List ℚ) (w nCps k excl : Nat) (thr : ℚ) :
    Except ClaspFault (List Nat × List (List (Option ℚ))) :=
  if nCps = 0 then .error .invalidBudget
  else if w = 0 then .error .invalidWindowLength
  else if s.length < 2 * w then .error .insufficientLength
  else .ok (recursiveSplit s w k excl nCps thr,
    (claspSearch s w k excl nCps thr).2)

/-- C6: for every sequence shorter than twice the (positive) window length,
and every positive budget, the algorithm fails with `insufficientLength` and
returns no change-point set at all — validation happens before any search
work is surfaced. -/
theorem insufficientLength_no_partial_result (s : List ℚ) (w nCps k excl : Nat)
    (thr : ℚ) (hb : 0 < nCps) (hw : 0 < w) (hshort : s.length < 2 * w) :
    claspRun s w nCps k excl thr = .error .insufficientLength := by
  unfold claspRun
  rw [if_neg (by omega), if_neg (by omega), if_pos hshort]

/-- Concrete instantiation of the insufficient-length theorem: a length-3
sequence with window length 2. -/
theorem insufficientLength_no_partial_result_witness :
    ((0 : Nat) < 1 ∧ (0 : Nat) < 2 ∧ ([(1 : ℚ), 2, 3]).length < 2 * 2) ∧
    claspRun [(1 : ℚ), 2, 3] 2 1 3 0 (1/2) = .error .insufficientLength :=
  ⟨⟨by norm_num, by norm_num, by norm_num⟩,
    insufficientLength_no_partial_result [(1 : ℚ), 2, 3] 2 1 3 0 (1/2)
      (by norm_num) (by norm_num) (by norm_num)⟩

/-- C7: the full segmentation run is a deterministic function of its inputs
and tuning knobs: two runs with equal sequences and equal parameter settings
return bit-identical change-point sets and score-profile collections. -/
theorem clasp_runs_bit_identical (s₁ s₂ : List ℚ)
    (w₁ w₂ nCps₁ nCps₂ k₁ k₂ excl₁ excl₂ : Nat) (thr₁ thr₂ : ℚ)
    (hs : s₁ = s₂) (hw : w₁ = w₂) (hn : nCps₁ = nCps₂) (hk : k₁ = k₂)
    (he : excl₁ = excl₂) (ht : thr₁ = thr₂) :
    claspRun s₁ w₁ nCps₁ k₁ excl₁ thr₁ = claspRun s₂ w₂ nCps₂ k₂ excl₂ thr₂ := by
  subst hs
  subst hw
  subst hn
  subst hk
  subst he
  subst ht
  rfl

/-- Concrete instantiation of the determinism theorem: two identical runs on a
length-4 sequence. -/
theorem clasp_runs_bit_identical_witness :
    claspRun [(0 : ℚ), 0, 1, 1] 1 1 3 0 (1/2) =
      claspRun [(0 : ℚ), 0, 1, 1] 1 1 3 0 (1/2) :=
  clasp_runs_bit_identical [(0 : ℚ), 0, 1, 1] [(0 : ℚ), 0, 1, 1] 1 1 1 1 3 3 0 0
    (1/2) (1/2) rfl rfl rfl rfl rfl rfl

/-- Modelled from the spec: the dominant-frequency bin of a magnitude
spectrum (§4.2) — the maximum-magnitude bin excluding the zero-frequency
component (bin 0), lowest bin on ties.  The floating-point Fourier transform
itself is outside the model; the magnitude spectrum is taken as input. -/
def dominantBin (spectrum : List ℚ) : Option (Nat × ℚ) :=
  argmaxAux 1 none ((spectrum.drop 1).map some)

/-- Modelled from the spec: `PeriodicityEstimator` (§4.2), missing from the
source snapshot.  Fails with `sequenceTooShort` when the sequence has fewer
than `2·minw` samples (or when no nonzero-frequency bin exists); otherwise
converts the dominant bin `b` to the period `round (n / b)` and clamps it to
the interval `[minw, n/4]`. -/
def findDominantWindowSize (spectrum : List ℚ) (n minw : Nat) :
    Except ClaspFault Nat :=
  if n < 2 * minw then .error .sequenceTooShort
  else
    match dominantBin spectrum with
    | none => .error .sequenceTooShort
    | some (b, _) =>
      .ok (max minw (min (n / 4) (round ((n : ℚ) / (b : ℚ))).toNat))

lemma map_some_drop_getElem? (spectrum : List ℚ) (j : Nat) (u : ℚ) :
    ((spectrum.drop 1).map some)[j]? = some (some u) ↔
      spectrum[j + 1]? = some u := by
  rw [List.getElem?_map, List.getElem?_drop]
  constructor
  · intro hh
    obtain ⟨a, ha, hfa⟩ := Option.map_eq_some'.mp hh
    rw [Option.some_inj] at hfa
    rw [show j + 1 = 1 + j from by omega, ha, hfa]
  · intro hh
    rw [show (1 : Nat) + j = j + 1 from by omega, hh]
    rfl

lemma dominantBin_spec {spectrum : List ℚ} {b : Nat} {v : ℚ}
    (h : dominantBin spectrum = some (b, v)) :
    1 ≤ b ∧ spectrum[b]? = some v ∧
    (∀ (j : Nat) (u : ℚ), 1 ≤ j → spectrum[j]? = some u → u ≤ v) := by
  obtain ⟨hA, -, hC⟩ := argmaxAux_spec ((spectrum.drop 1).map some) 1 none b v h
  rcases hC with ⟨j, hj, hbeq, -, -⟩ | habs
  · refine ⟨by omega, ?_, ?_⟩
    · have := (map_some_drop_getElem? spectrum j v).mp hj
      rw [show b = j + 1 from by omega]
      exact this
    · intro j2 u hj2 hsp
      refine hA (j2 - 1) u ?_
      refine (map_some_drop_getElem? spectrum (j2 - 1) u).mpr ?_
      rw [show j2 - 1 + 1 = j2 from by omega]
      exact hsp
  · exact absurd habs (by simp)

/-- C9: for every magnitude spectrum and sequence length `n` with at least
`2·minw` samples, the periodicity estimator returns `round (n / b)` clamped to
`[minw, n/4]`, where `b` is the maximum-magnitude frequency bin excluding the
zero-frequency component; with fewer than `2·minw` samples it fails with
`sequenceTooShort`. -/
theorem periodicityEstimator_dominant_period (spectrum : List ℚ) (n minw : Nat) :
    (n < 2 * minw →
      findDominantWindowSize spectrum n minw = .error .sequenceTooShort) ∧
    (2 * minw ≤ n → ∀ (b : Nat) (v : ℚ), dominantBin spectrum = some (b, v) →
      findDominantWindowSize spectrum n minw =
        .ok (max minw (min (n / 4) (round ((n : ℚ) / (b : ℚ))).toNat)) ∧
      1 ≤ b ∧ spectrum[b]? = some v ∧
      (∀ (j : Nat) (u : ℚ), 1 ≤ j → spectrum[j]? = some u → u ≤ v)) := by
  constructor
  · intro hshort
    unfold findDominantWindowSize
    rw [if_pos hshort]
  · intro hlong b v hb
    obtain ⟨h1, h2, h3⟩ := dominantBin_spec hb
    refine ⟨?_, h1, h2, h3⟩
    unfold findDominantWindowSize
    rw [if_neg (by omega), hb]

/-- Concrete instantiation of the periodicity-estimator theorem on the
spectrum `[5, 1, 3, 2]` (dominant nonzero bin 2, magnitude 3), with `n = 8`
and `minw = 2`, and on the too-short side with `n = 3`. -/
theorem periodicityEstimator_dominant_period_witness :
    findDominantWindowSize [(5 : ℚ), 1, 3, 2] 3 2 = .error .sequenceTooShort ∧
    (findDominantWindowSize [(5 : ℚ), 1, 3, 2] 8 2 =
        .ok (max 2 (min (8 / 4) (round ((8 : ℚ) / (2 : ℚ))).toNat)) ∧
      1 ≤ 2 ∧ ([(5 : ℚ), 1, 3, 2])[2]? = some 3 ∧
      (∀ (j : Nat) (u : ℚ), 1 ≤ j → ([(5 : ℚ), 1, 3, 2])[j]? = some u →
        u ≤ 3)) :=
  ⟨(periodicityEstimator_dominant_period [(5 : ℚ), 1, 3, 2] 3 2).1 (by norm_num),
    (periodicityEstimator_dominant_period [(5 : ℚ), 1, 3, 2] 8 2).2 (by norm_num)
      2 3 (by decide)⟩

/-- Output formats of the estimator wrapper. -/
inductive SegFormat where
  | sparse
  | dense
deriving DecidableEq

/-- Modelled from the spec: the estimator wrapper of §6 with its documented
defaults; the output format defaults to sparse when not supplied. -/
structure ClaSPSegmentation where
  period_length : Nat
  n_cps : Nat
  exclusion_radius : Nat := 5
  fold_count : Nat := 5
  acceptance_threshold : ℚ := 1 / 2
  fmt : SegFormat := SegFormat.sparse

/-- A segmentation result: either the change-point index set (sparse) or the
per-sample segment-id sequence (dense). -/
inductive SegmentationResult where
  | sparse (cps : List Nat)
  | dense (ids : List Nat)
deriving DecidableEq

/-- Modelled from the spec: `fit_predict` of the estimator wrapper — run the
validated core and render the result in the configured output format
(§4.6, §6). -/
def fit_predict (c : ClaSPSegmentation) (s : List ℚ) :
    Except ClaspFault SegmentationResult :=
  match claspRun s c.period_length c.n_cps c.fold_count c.exclusion_radius
      c.acceptance_threshold with
  | .error e => .error e
  | .ok (cps, _) =>
    .ok (match c.fmt with
      | SegFormat.sparse => SegmentationResult.sparse cps
      | SegFormat.dense => SegmentationResult.dense (denseOf cps s.length))

/-- C10: a `ClaSPSegmentation` constructed without an explicit output format
defaults to the sparse format, and its `fit_predict` then returns the
change-point index set — not the dense per-sample segment-id sequence —
whenever the run succeeds. -/
theorem claSPSegmentation_default_fmt_is_sparse (p nc : Nat) (s : List ℚ) :
    ({ period_length := p, n_cps := nc } : ClaSPSegmentation).fmt =
      SegFormat.sparse ∧
    (∀ (cps : List Nat) (profs : List (List (Option ℚ))),
      claspRun s p nc 5 5 (1/2) = .ok (cps, profs) →
      fit_predict { period_length := p, n_cps := nc } s =
        .ok (SegmentationResult.sparse cps)) := by
  refine ⟨rfl, ?_⟩
  intro cps profs h
  unfold fit_predict
  dsimp only
  rw [h]

/-- Concrete instantiation of the default-format theorem: on a length-4
sequence the default-constructed estimator returns the sparse change-point
set. -/
theorem claSPSegmentation_default_fmt_is_sparse_witness :
    claspRun [(0 : ℚ), 0, 1, 1] 1 1 5 5 (1/2) = .ok ([], []) ∧
    fit_predict { period_length := 1, n_cps := 1 } [(0 : ℚ), 0, 1, 1] =
      .ok (SegmentationResult.sparse []) :=
  ⟨rfl, (claSPSegmentation_default_fmt_is_sparse 1 1 [(0 : ℚ), 0, 1, 1]).2 [] []
    rfl⟩

end Aeon
